import Mathlib

/-!
Verification of the StaV compiler core (src/src/main.rs): tokenizer,
value/command classifier, stack-machine evaluator and HTML generator,
shallowly embedded in Lean. The embedding follows the Rust source
function by function; the data stack is modelled as a Lean list whose
head is the top of the stack (the end of the Rust `Vec`), and the
`HashMap` scope as an association list whose lookup returns the most
recent insertion for a key.
-/

set_option maxRecDepth 8000

namespace Stav

/-- Whitespace characters recognised by the tokenizer match arm
`' ' | '\n' | '\t' | '\r'`. -/
def isWs (c : Char) : Bool :=
  c = ' ' || c = '\n' || c = '\t' || c = '\r'

/-- Escape mapping applied by `tokenize` when `is_escape` is set:
`'n' => '\n', 't' => '\t', 'r' => '\r', _ => c`. -/
def escChar (c : Char) : Char :=
  if c = 'n' then '\n'
  else if c = 't' then '\t'
  else if c = 'r' then '\r'
  else c

/-- The mutable locals of the Rust `tokenize` loop: finished tokens,
the current token being accumulated, and the `in_quote` / `is_escape`
flags. -/
structure TokState where
  tokens : List String
  current : List Char
  inQuote : Bool
  isEscape : Bool
deriving DecidableEq

/-- One iteration of the `for c in source.chars()` loop of `tokenize`. -/
def tokStep (st : TokState) (c : Char) : TokState :=
  if st.isEscape then
    { st with current := st.current ++ [escChar c], isEscape := false }
  else if c = '"' then
    { st with inQuote := !st.inQuote, current := st.current ++ [c] }
  else if c = '\\' && st.inQuote then
    { st with current := st.current ++ [c], isEscape := true }
  else if isWs c && !st.inQuote && !st.current.isEmpty then
    { st with tokens := st.tokens ++ [String.mk st.current], current := [] }
  else
    { st with current := st.current ++ [c] }

/-- The initial tokenizer state. -/
def tokInit : TokState := ⟨[], [], false, false⟩

/-- The tokenizer state after consuming the whole source. -/
def scan (source : String) : TokState :=
  source.toList.foldl tokStep tokInit

/-- `fn tokenize(source: &str) -> Option<Vec<String>>`: run the loop,
fail if an escape is pending or a quote is unterminated, otherwise
push the final nonempty token and return the token list. -/
def tokenize (source : String) : Option (List String) :=
  let st := scan source
  if st.isEscape || st.inQuote then none
  else if !st.current.isEmpty then some (st.tokens ++ [String.mk st.current])
  else some st.tokens

/-- The recursion of `fn text_escape`: a backslash enters escape mode
(emitting nothing); in escape mode the next character is emitted
literally. A pending escape at the end emits nothing. -/
def textEscapeGo : Bool → List Char → List Char
  | _, [] => []
  | true, c :: rest => c :: textEscapeGo false rest
  | false, c :: rest =>
    if c = '\\' then textEscapeGo true rest else c :: textEscapeGo false rest

/-- `fn text_escape(text: &str) -> String`. -/
def text_escape (s : String) : String :=
  String.mk (textEscapeGo false s.toList)

/-- `text.replace("\\\n", "<br>")` from `Value::parse`: replace each
non-overlapping occurrence of a backslash followed by a newline with
the four characters `<br>`, scanning left to right. -/
def replaceBrNl : List Char → List Char
  | '\\' :: '\n' :: rest => '<' :: 'b' :: 'r' :: '>' :: replaceBrNl rest
  | c :: rest => c :: replaceBrNl rest
  | [] => []

/-- Rust `char::is_whitespace`: the Unicode `White_Space` property
(U+0009..U+000D, U+0020, U+0085, U+00A0, U+1680, U+2000..U+200A,
U+2028, U+2029, U+202F, U+205F, U+3000). -/
def isRustWs (c : Char) : Bool :=
  (9 <= c.toNat && c.toNat <= 13) || c.toNat = 32 || c.toNat = 133
    || c.toNat = 160 || c.toNat = 5760
    || (8192 <= c.toNat && c.toNat <= 8202) || c.toNat = 8232
    || c.toNat = 8233 || c.toNat = 8239 || c.toNat = 8287
    || c.toNat = 12288

/-- Rust `str::trim`: drop leading and trailing Unicode whitespace. -/
def trimChars (cs : List Char) : List Char :=
  ((cs.dropWhile isRustWs).reverse.dropWhile isRustWs).reverse

/-- String-level trim used by the classifier and the driver. -/
def strTrim (s : String) : String :=
  String.mk (trimChars s.toList)

/-- Decidable list-prefix test used by the substring helper. -/
def listPrefixOf : List Char → List Char → Bool
  | [], _ => true
  | _ :: _, [] => false
  | a :: as, b :: bs => a = b && listPrefixOf as bs

/-- Decidable list-infix test used by the substring helper. -/
def listInfixOf (needle : List Char) : List Char → Bool
  | [] => listPrefixOf needle []
  | c :: rest => listPrefixOf needle (c :: rest) || listInfixOf needle rest

/-- `strContains hay needle` decides whether `needle` occurs as a
contiguous substring of `hay`. -/
def strContains (hay needle : String) : Bool :=
  listInfixOf needle.toList hay.toList

/-- `source.starts_with(..)` on the character list. -/
def strStartsWith (s pre : String) : Bool :=
  listPrefixOf pre.toList s.toList

/-- `token.strip_prefix("@")`. -/
def stripAt (s : String) : Option String :=
  match s.toList with
  | c :: rest => if c = '@' then some (String.mk rest) else none
  | [] => none

/-- `source.strip_prefix('"').and_then(|x| x.strip_suffix('"'))` from
`Value::parse`. -/
def stripQuotes (s : String) : Option String :=
  match s.toList with
  | '"' :: rest =>
    match rest.getLast? with
    | some '"' => some (String.mk rest.dropLast)
    | _ => none
  | _ => none

/-- All-digit decimal accumulation for `str::parse::<i32>`. -/
def digitsToNatGo : Nat → List Char → Option Nat
  | acc, [] => some acc
  | acc, c :: rest =>
    if c.isDigit then digitsToNatGo (acc * 10 + (c.toNat - 48)) rest else none

/-- A nonempty all-digit character list as a natural number. -/
def digitsToNat : List Char → Option Nat
  | [] => none
  | cs => digitsToNatGo 0 cs

/-- Range check of `i32`. -/
def i32InRange (v : Int) : Option Int :=
  if -2147483648 ≤ v ∧ v ≤ 2147483647 then some v else none

/-- `source.parse::<i32>().ok()`: optional sign, then decimal digits,
with the 32-bit signed range check. -/
def parseI32 (s : String) : Option Int :=
  match s.toList with
  | '+' :: rest => (digitsToNat rest).bind fun n => i32InRange (n : Int)
  | '-' :: rest => (digitsToNat rest).bind fun n => i32InRange (-(n : Int))
  | cs => (digitsToNat cs).bind fun n => i32InRange (n : Int)

/-- `enum HTMLTag` from the source. -/
inductive HTMLTag where
  | Heading (level : Int)
  | Paragraph
  | Link (url : String)
  | Image (url : String)
  | BlockQuote
  | List
deriving DecidableEq

/-- `struct Text` from the source. -/
structure Text where
  content : String
  font_size : Option Int
  tag : HTMLTag
deriving DecidableEq

/-- `enum Value` from the source. -/
inductive Value where
  | Text (text : Text)
  | Integer (int : Int)
  | Link (url : String)
  | Symbol (name : String)
deriving DecidableEq

/-- `enum Command` from the source. -/
inductive Command where
  | Heading
  | FontSize
  | Link
  | BlockQuote
  | Image
  | List
  | Title
  | Theme
  | Load
  | Store
  | Concat
  | Dup
  | Swap
  | Pop
deriving DecidableEq

/-- `enum Node` from the source. -/
inductive Node where
  | Literal (value : Value)
  | Command (command : Command)
deriving DecidableEq

/-- `struct Stack` from the source. `data` is the value stack with the
list head as the top; `scope` models the `HashMap` as an association
list where an insertion shadows earlier entries with the same key. -/
structure Stack where
  data : List Value
  scope : List (String × Value)
  title : Option String
  theme : Option String
deriving DecidableEq

/-- `HashMap::get` on the association-list model of the scope. -/
def scopeGet (name : String) : List (String × Value) → Option Value
  | [] => none
  | (k, v) :: rest => if name = k then some v else scopeGet name rest

/-- `fn to_string(&self)` of `Value`. -/
def Value.to_string : Value → String
  | .Integer int => toString int
  | .Text text => text.content
  | .Link text => text
  | .Symbol text => text

/-- `fn parse(source: &str) -> Option<Value>`. -/
def Value.parse (source : String) : Option Value :=
  match stripQuotes source with
  | some text =>
    some (.Text
      { content := text_escape (strTrim (String.mk (replaceBrNl text.toList)))
        font_size := none
        tag := .Paragraph })
  | none =>
    match parseI32 source with
    | some number => some (.Integer number)
    | none =>
      if strStartsWith source "https://" then some (.Link source)
      else if strStartsWith source "@" then
        some (.Symbol (String.mk (source.toList.drop 1)))
      else none

/-- `fn parse(source: &str) -> Option<Command>`. -/
def Command.parse (source : String) : Option Command :=
  if source = "heading" then some .Heading
  else if source = "font-size" then some .FontSize
  else if source = "link" then some .Link
  else if source = "block-quote" then some .BlockQuote
  else if source = "list" then some .List
  else if source = "image" then some .Image
  else if source = "title" then some .Title
  else if source = "theme" then some .Theme
  else if source = "load" then some .Load
  else if source = "concat" then some .Concat
  else if source = "store" then some .Store
  else if source = "dup" then some .Dup
  else if source = "swap" then some .Swap
  else if source = "pop" then some .Pop
  else none

/-- `fn parse(source: &str) -> Option<Node>`: commands take priority
over literal values. -/
def Node.parse (source : String) : Option Node :=
  match Command.parse source with
  | some value => some (.Command value)
  | none =>
    match Value.parse source with
    | some value => some (.Literal value)
    | none => none

/-- The interpolation closure of `Value::eval` applied to one token:
a token beginning with `@` is replaced by the string form of the
scope binding named by the remainder (failing when absent); any other
token is kept unchanged. -/
def substTok (scope : List (String × Value)) (token : String) : Option String :=
  match stripAt token with
  | some name => (scopeGet name scope).map Value.to_string
  | none => some token

/-- `str::join(" ")` on a vector of strings. -/
def joinSep (sep : String) : List String → String
  | [] => ""
  | [x] => x
  | x :: rest => x ++ sep ++ joinSep sep rest

/-- `fn eval(&self, stack: &mut Stack) -> Option<()>` of `Value`,
in state-passing form: a `Text` literal is re-tokenized, its `@`
tokens substituted from the scope, rejoined with single spaces and
pushed; every other value is pushed unchanged. -/
def Value.eval (v : Value) (stack : Stack) : Option Stack :=
  match v with
  | .Text text => do
    let toks ← tokenize text.content
    let subs ← toks.mapM (substTok stack.scope)
    some { stack with
      data := .Text { text with content := joinSep " " subs } :: stack.data }
  | _ => some { stack with data := v :: stack.data }

/-- `fn eval(&self, stack: &mut Stack) -> Option<()>` of `Command`,
in state-passing form. The head of `data` is the top of the stack, so
each `stack.data.pop()?` is a match on one more leading constructor. -/
def Command.eval (c : Command) (stack : Stack) : Option Stack :=
  match c with
  | .Heading =>
    match stack.data with
    | .Integer level :: .Text text :: rest =>
      some { stack with data := .Text { text with tag := .Heading level } :: rest }
    | _ => none
  | .FontSize =>
    match stack.data with
    | .Integer size :: .Text text :: rest =>
      some { stack with data := .Text { text with font_size := some size } :: rest }
    | _ => none
  | .Link =>
    match stack.data with
    | .Link url :: .Text text :: rest =>
      some { stack with data := .Text { text with tag := .Link url } :: rest }
    | _ => none
  | .BlockQuote =>
    match stack.data with
    | .Text text :: rest =>
      some { stack with data := .Text { text with tag := .BlockQuote } :: rest }
    | _ => none
  | .Image =>
    match stack.data with
    | .Link url :: rest =>
      some { stack with
        data := .Text { content := "", font_size := none, tag := .Image url } :: rest }
    | _ => none
  | .List =>
    match stack.data with
    | .Text text :: rest =>
      some { stack with data := .Text { text with tag := .List } :: rest }
    | _ => none
  | .Title =>
    match stack.data with
    | .Text text :: rest =>
      some { stack with data := rest, title := some text.content }
    | _ => none
  | .Theme =>
    match stack.data with
    | .Text text :: rest =>
      some { stack with data := rest, theme := some text.content }
    | _ => none
  | .Load =>
    match stack.data with
    | .Symbol name :: rest =>
      match scopeGet name stack.scope with
      | some v => some { stack with data := v :: rest }
      | none => none
    | _ => none
  | .Store =>
    match stack.data with
    | .Symbol name :: value :: rest =>
      some { stack with data := rest, scope := (name, value) :: stack.scope }
    | _ => none
  | .Concat =>
    match stack.data with
    | .Text text2 :: .Text text1 :: rest =>
      some { stack with
        data := .Text { text1 with content := text1.content ++ text2.content } :: rest }
    | _ => none
  | .Dup =>
    match stack.data with
    | value :: rest => some { stack with data := value :: value :: rest }
    | _ => none
  | .Swap =>
    match stack.data with
    | value1 :: value2 :: rest =>
      some { stack with data := value2 :: value1 :: rest }
    | _ => none
  | .Pop =>
    match stack.data with
    | _ :: rest => some { stack with data := rest }
    | _ => none

/-- `fn eval(&self, stack: &mut Stack) -> Option<()>` of `Node`. -/
def Node.eval (nd : Node) (stack : Stack) : Option Stack :=
  match nd with
  | .Literal value => Value.eval value stack
  | .Command command => Command.eval command stack

/-- The `for token in tokens { token.eval(&mut stack)?; }` loop of
`fn stav`. -/
def evalNodes : List Node → Stack → Option Stack
  | [], st => some st
  | nd :: rest, st => (Node.eval nd st).bind (evalNodes rest)

/-- The `set_font_size!` macro of `generate`: a leading-space style
attribute when `font_size` is set, the empty string otherwise. -/
def set_font_size : Option Int → String
  | some font_size => " style=\"font-size: " ++ toString font_size ++ "px;\""
  | none => ""

/-- The non-`List` arms of the `match (text.tag, text.font_size)` in
`generate` (the `List` arm buffers instead of producing a fragment). -/
def renderText (text : Text) : String :=
  match text.tag with
  | .Paragraph =>
    "<p" ++ set_font_size text.font_size ++ ">" ++ text.content ++ "</p>"
  | .Heading level =>
    "<h" ++ toString level ++ set_font_size text.font_size ++ ">"
      ++ text.content ++ "</h" ++ toString level ++ ">"
  | .Link url =>
    "<a href=\"" ++ url ++ "\"" ++ set_font_size text.font_size ++ ">"
      ++ text.content ++ "</a>"
  | .BlockQuote =>
    "<blockquote" ++ set_font_size text.font_size ++ ">"
      ++ text.content ++ "</blockquote>"
  | .Image url =>
    "<img src=\"" ++ url ++ "\" alt=\"" ++ text.content ++ "\">"
  | .List => ""

/-- The `<li ...>` item buffered by the `List` arm of `generate`;
note the unconditional space after `<li` in the Rust format string
`"<li {}>{}</li>"`. -/
def renderLi (text : Text) : String :=
  "<li " ++ set_font_size text.font_size ++ ">" ++ text.content ++ "</li>"

/-- The `for value in stack.data` loop of `generate`, over the values
in document order, carrying the `output` fragments, the buffered `list`
items and the `is_list` flag. The Rust loop performs no flush after the
last iteration, so a pending list group at the end is dropped. -/
def generateGo : List Value → List String → List String → Bool → Option (List String)
  | [], output, _, _ => some output
  | value :: rest, output, list, is_list =>
    match value with
    | .Text text =>
      match text.tag with
      | .List => generateGo rest output (list ++ [renderLi text]) true
      | _ =>
        let html := renderText text
        if is_list then
          generateGo rest (output ++ ["<ul>" ++ joinSep "\n" list ++ "</ul>", html]) [] false
        else
          generateGo rest (output ++ [html]) list false
    | _ => none

/-- The fixed document skeleton of `generate`, with the title, theme
and joined body fragments substituted. -/
def htmlSkeleton (title theme body : String) : String :=
  "\n        <html>\n            <head>\n                <meta charset=\"UTF-8\">\n                <title>"
    ++ title
    ++ "</title>\n                <link rel=\"stylesheet\" href=\"theme/"
    ++ theme
    ++ ".css\">\n            </head>\n            <body>\n                "
    ++ body
    ++ "\n            </body>\n        </html>\n        "

/-- `fn generate(stack: Stack) -> Option<String>`: fails on any
non-`Text` stack entry, renders the fragments (grouping consecutive
`List` items into `<ul>` blocks), and fills the skeleton with the
title (default `"Untitled"`), theme (default `"none"`) and fragments
joined by newlines. `stack.data` stores the top first, so document
order is its reverse. -/
def generate (stack : Stack) : Option String := do
  let output ← generateGo stack.data.reverse [] [] false
  some (htmlSkeleton (stack.title.getD "Untitled") (stack.theme.getD "none")
    (joinSep "\n" output))

/-- The token-to-node phase of `fn stav`: tokenize, discard
whitespace-only tokens, classify each trimmed token. -/
def parseNodes (source : String) : Option (List Node) := do
  let raw ← tokenize source
  (raw.filter (fun x => !(strTrim x).isEmpty)).mapM (fun x => Node.parse (strTrim x))

/-- The empty machine state built at the start of `fn stav`. -/
def initStack : Stack := ⟨[], [], none, none⟩

/-- `fn stav(source: &str) -> Option<String>`: the whole pipeline. -/
def stav (source : String) : Option String := do
  let nodes ← parseNodes source
  let st ← evalNodes nodes initStack
  generate st

/-- The operand discipline of the command table: `true` exactly when
the stack holds at least the command's fixed number of operands and
each popped operand has the required kind. -/
def operandShapeOk : Command → List Value → Bool
  | .Heading, .Integer _ :: .Text _ :: _ => true
  | .FontSize, .Integer _ :: .Text _ :: _ => true
  | .Link, .Link _ :: .Text _ :: _ => true
  | .BlockQuote, .Text _ :: _ => true
  | .Image, .Link _ :: _ => true
  | .List, .Text _ :: _ => true
  | .Title, .Text _ :: _ => true
  | .Theme, .Text _ :: _ => true
  | .Load, .Symbol _ :: _ => true
  | .Store, .Symbol _ :: _ :: _ => true
  | .Concat, .Text _ :: .Text _ :: _ => true
  | .Dup, _ :: _ => true
  | .Swap, _ :: _ :: _ => true
  | .Pop, _ :: _ => true
  | _, _ => false

/-- Whether executing this node in this state is a `store` that binds
the name `n`: the node is the `store` command and the stack top holds
`Symbol n` above at least one value. -/
def storesTo (n : String) (nd : Node) (st : Stack) : Bool :=
  match nd, st.data with
  | .Command .Store, .Symbol m :: _ :: _ => m == n
  | _, _ => false

/-- Along the evaluation of a node list, no executed `store` binds the
name `n`; `store`s to other names are allowed. -/
def preservesBinding (n : String) : List Node → Stack → Bool
  | [], _ => true
  | nd :: rest, st =>
    !storesTo n nd st &&
      (match Node.eval nd st with
       | some st1 => preservesBinding n rest st1
       | none => true)

/-- Spec-side definition, following the claim's words: the string form
of a bound value (`Integer` to its decimal digits, `Text` to its
content, `Link` and `Symbol` to their raw text). -/
def stringFormSpec : Value → String
  | .Integer n => toString n
  | .Text t => t.content
  | .Link s => s
  | .Symbol s => s

/-- Spec-side definition, following the claim's words: a token
beginning with `@` is looked up in the scope by the remainder as name
and replaced by the bound value's string form; other tokens are kept. -/
def substTokenSpec (scope : List (String × Value)) (token : String) : Option String :=
  if strStartsWith token "@" then
    (scopeGet (String.mk (token.toList.drop 1)) scope).map stringFormSpec
  else some token

/-- Spec-side definition, following the claim's words: re-tokenize the
content with the same whitespace/quote grammar, substitute each `@`
token from the scope (failing if a name is absent), and rejoin all
tokens with exactly one space between adjacent tokens. -/
def interpolateSpec (scope : List (String × Value)) (content : String) : Option String :=
  (tokenize content).bind fun toks =>
    (toks.mapM (substTokenSpec scope)).map (joinSep " ")

/-- Spec-side definition, following the claim's words: a well-formed
quoted-literal body writing the intended text with `\t`, `\r` and `\\`
escape sequences. -/
def encodeEsc : List Char → List Char
  | [] => []
  | c :: rest =>
    if c = '\t' then '\\' :: 't' :: encodeEsc rest
    else if c = '\r' then '\\' :: 'r' :: encodeEsc rest
    else if c = '\\' then '\\' :: '\\' :: encodeEsc rest
    else c :: encodeEsc rest

/-- The token body the tokenizer accumulates for `encodeEsc`: each
escape sequence keeps its backslash, with the escaped character already
mapped. -/
def tokBody : List Char → List Char
  | [] => []
  | c :: rest =>
    if c = '\t' then '\\' :: '\t' :: tokBody rest
    else if c = '\r' then '\\' :: '\r' :: tokBody rest
    else if c = '\\' then '\\' :: '\\' :: tokBody rest
    else c :: tokBody rest

/-- Claim C9: end to end, `"Hello, World" "h1" heading` fails to
compile because `heading` expects an `Integer` level on top of the
stack, while `"Hello, World" 1 heading` compiles and its body contains
`<h1>Hello, World</h1>`. -/
theorem C9_heading_end_to_end :
    stav "\"Hello, World\" \"h1\" heading" = none
    ∧ (stav "\"Hello, World\" 1 heading").isSome = true
    ∧ strContains ((stav "\"Hello, World\" 1 heading").getD "")
        "<h1>Hello, World</h1>" = true := by
  refine ⟨by decide, by decide, by decide⟩

/-- Claim C4, counterexample: on `"pic" "https://x/y.png" image` the
quoted URL token classifies as a `Paragraph` `Text`, not as a `Link`,
so evaluation of the three parsed nodes fails at the `image` command
and the surviving two-value stack claimed by the specification never
exists. -/
theorem C4_image_counterexample :
    Node.parse "\"https://x/y.png\""
      = some (.Literal (.Text ⟨"https://x/y.png", none, .Paragraph⟩))
    ∧ Node.parse "\"https://x/y.png\"" ≠ some (.Literal (.Link "https://x/y.png"))
    ∧ evalNodes [.Literal (.Text ⟨"pic", none, .Paragraph⟩),
        .Literal (.Text ⟨"https://x/y.png", none, .Paragraph⟩),
        .Command .Image] initStack = none := by
  refine ⟨by decide, by decide, by decide⟩

/-- Claim C4, amended: for the end-to-end input
`"pic" "https://x/y.png" image`, the two quoted literals classify and
evaluate to two `Paragraph` `Text` values; the `image` command then
fails because the top of the stack is a `Text` and not a `Link`, so the
whole compile fails with no output before generation is reached. -/
theorem C4_image_amended :
    parseNodes "\"pic\" \"https://x/y.png\" image"
      = some [.Literal (.Text ⟨"pic", none, .Paragraph⟩),
          .Literal (.Text ⟨"https://x/y.png", none, .Paragraph⟩),
          .Command .Image]
    ∧ evalNodes [.Literal (.Text ⟨"pic", none, .Paragraph⟩),
        .Literal (.Text ⟨"https://x/y.png", none, .Paragraph⟩)] initStack
      = some ⟨[.Text ⟨"https://x/y.png", none, .Paragraph⟩,
          .Text ⟨"pic", none, .Paragraph⟩], [], none, none⟩
    ∧ Command.eval .Image ⟨[.Text ⟨"https://x/y.png", none, .Paragraph⟩,
        .Text ⟨"pic", none, .Paragraph⟩], [], none, none⟩ = none
    ∧ stav "\"pic\" \"https://x/y.png\" image" = none := by
  refine ⟨by decide, by decide, by decide, by decide⟩

/-- Claim C1: the generator never flushes a pending list group at the
end of the stack: the loop of `generate` only emits the buffered
`<ul>…</ul>` when a later non-`List` entry is reached, so trailing
`List`-tagged entries are silently dropped, while the same entries
followed by a non-`List` entry do produce the `<ul>` group. -/
theorem C1_trailing_list_dropped :
    stav "\"a\" list" = some (htmlSkeleton "Untitled" "none" "")
    ∧ strContains (htmlSkeleton "Untitled" "none" "") "<ul" = false
    ∧ strContains (htmlSkeleton "Untitled" "none" "") "</li>" = false
    ∧ generate ⟨[.Text ⟨"a", none, .List⟩], [], none, none⟩
      = some (htmlSkeleton "Untitled" "none" "")
    ∧ strContains ((stav "\"a\" list \"b\"").getD "")
        "<ul><li >a</li></ul>" = true := by
  refine ⟨by decide, by decide, by decide, by decide, by decide⟩

/-- Claim C2, counterexample: a `List`-tagged `Text` with unset
`font_size` is buffered as `<li >content</li>` — with a space between
`<li` and `>` coming from the Rust format string `"<li {}>{}</li>"` —
not as `<li>content</li>`. -/
theorem C2_li_space_counterexample :
    generate ⟨[.Text ⟨"y", none, .Paragraph⟩, .Text ⟨"x", none, .List⟩],
        [], none, none⟩
      = some (htmlSkeleton "Untitled" "none" "<ul><li >x</li></ul>\n<p>y</p>")
    ∧ strContains (htmlSkeleton "Untitled" "none" "<ul><li >x</li></ul>\n<p>y</p>")
        "<li >x</li>" = true
    ∧ strContains (htmlSkeleton "Untitled" "none" "<ul><li >x</li></ul>\n<p>y</p>")
        "<li>x</li>" = false := by
  refine ⟨by decide, by decide, by decide⟩

/-- Claim C2, amended: a `List`-tagged `Text` whose `font_size` is
unset is buffered exactly as `<li >content</li>`: the style insertion
is the empty string, but the format string always places one space
after `<li`. -/
theorem C2_li_no_font_size_amended (s : String) (rest : List Value)
    (output list : List String) (b : Bool) :
    generateGo (Value.Text ⟨s, none, .List⟩ :: rest) output list b
      = generateGo rest output (list ++ ["<li >" ++ s ++ "</li>"]) true := by
  have h : "<li " ++ set_font_size none ++ ">" = "<li >" := by decide
  simp only [generateGo, renderLi]
  rw [show "<li " ++ set_font_size none ++ ">" ++ s ++ "</li>"
      = "<li >" ++ s ++ "</li>" from by rw [← h]]

/-- Claim C5, counterexample: interpolation does not collapse internal
whitespace runs: in the content `a⟨tab⟩⟨tab⟩b` the second tab becomes
part of the following token, so the rejoined content is `a ⟨tab⟩b`,
not `a b`. -/
theorem C5_whitespace_counterexample :
    Value.eval (.Text ⟨"a\t\tb", none, .Paragraph⟩) initStack
      = some ⟨[.Text ⟨"a \tb", none, .Paragraph⟩], [], none, none⟩
    ∧ "a \tb" ≠ "a b" := by
  refine ⟨by decide, by decide⟩

/-- Claim C5, amended: evaluating a `Text` literal re-tokenizes its
content with the same whitespace/quote grammar, substitutes each token
beginning with `@` by the string form of the scope binding named by the
remainder (failing the whole evaluation if a name is absent), and
pushes the tokens rejoined with exactly one space between adjacent
tokens; a single whitespace separator is thereby normalized to one
space, but in a longer whitespace run the characters after the first
are carried into the next token, so original internal whitespace is
not always collapsed. -/
theorem C5_interpolation_amended (st : Stack) (text : Text) :
    Value.eval (.Text text) st
      = (interpolateSpec st.scope text.content).map
          (fun c => { st with data := .Text { text with content := c } :: st.data }) := by
  have hform : stringFormSpec = Value.to_string := by
    funext v
    cases v <;> rfl
  have hfun : substTok st.scope = substTokenSpec st.scope := by
    funext token
    obtain ⟨cs⟩ := token
    rcases cs with _ | ⟨c, rest⟩
    · simp [substTok, substTokenSpec, stripAt, strStartsWith, listPrefixOf]
    · by_cases hc : c = '@'
      · subst hc
        simp [substTok, substTokenSpec, stripAt, strStartsWith, listPrefixOf, hform,
          String.toList]
      · simp [substTok, substTokenSpec, stripAt, strStartsWith, listPrefixOf, hc,
          String.toList, Ne.symm hc]
  simp only [Value.eval, interpolateSpec, hfun]
  rcases htok : tokenize text.content with _ | toks
  · simp [htok]
  · simp only [Option.bind_eq_bind, Option.some_bind]
    generalize mapM (substTokenSpec st.scope) toks = m
    cases m <;> rfl

/-- Claim C10: the source token `"\""` classifies successfully as a
`Text` literal whose content is the single double-quote character, yet
evaluating any `Text` literal whose content fails tokenization (such as
this one, whose quote is unmatched) aborts the evaluation, and the whole
compile of that source fails with no output. -/
theorem C10_literal_retokenize_failure :
    Node.parse "\"\\\"\"" = some (.Literal (.Text ⟨"\"", none, .Paragraph⟩))
    ∧ (∀ (st : Stack) (t : Text), tokenize t.content = none →
        Value.eval (.Text t) st = none)
    ∧ stav "\"\\\"\"" = none := by
  refine ⟨by decide, ?_, by decide⟩
  intro st t h
  simp [Value.eval, h]

/-- Witness for C10: the universal part applied to the literal with
content a single double-quote character, in the empty machine state. -/
theorem C10_witness :
    Value.eval (.Text ⟨"\"", none, .Paragraph⟩) initStack = none :=
  C10_literal_retokenize_failure.2.1 initStack ⟨"\"", none, .Paragraph⟩ (by decide)

/-- Claim C6: whenever the stack does not hold a command's fixed number
of operands, or a popped operand has the wrong kind, evaluating the
command fails, and evaluation of any node sequence starting with that
command fails as well, so the whole compilation aborts. -/
theorem C6_operand_discipline (c : Command) (st : Stack)
    (h : operandShapeOk c st.data = false) :
    Command.eval c st = none
    ∧ ∀ rest : List Node, evalNodes (Node.Command c :: rest) st = none := by
  have h1 : Command.eval c st = none := by
    obtain ⟨data, scope, title, theme⟩ := st
    cases c <;>
      rcases data with _ | ⟨_ | _ | _ | _, _ | ⟨_ | _ | _ | _, rest⟩⟩ <;>
      simp_all [operandShapeOk, Command.eval]
  exact ⟨h1, fun rest => by simp [evalNodes, Node.eval, h1]⟩

/-- Witness for C6: `heading` on the empty stack fails. -/
theorem C6_witness : Command.eval .Heading initStack = none :=
  (C6_operand_discipline .Heading initStack (by decide)).1

/-- Claim C7: when the end of the input is reached while a backslash
escape is pending or while inside an unterminated quoted region, the
tokenizer fails and produces no tokens at all, and the whole compile of
that source fails with no output, regardless of how many complete
tokens were already accumulated. -/
theorem C7_unterminated_input (source : String)
    (h : (scan source).isEscape = true ∨ (scan source).inQuote = true) :
    tokenize source = none ∧ stav source = none := by
  have h1 : tokenize source = none := by
    unfold tokenize
    rcases h with h | h <;> simp [h]
  refine ⟨h1, ?_⟩
  simp [stav, parseNodes, h1]

/-- Witness for C7: an unterminated quote after a complete token. -/
theorem C7_witness : tokenize "tok \"abc" = none ∧ stav "tok \"abc" = none :=
  C7_unterminated_input "tok \"abc" (Or.inr (by decide))

/-- Evaluating a literal never changes the scope. -/
theorem value_eval_scope (v : Value) (st st' : Stack)
    (h : Value.eval v st = some st') : st'.scope = st.scope := by
  cases v with
  | Text t =>
    simp only [Value.eval, Option.bind_eq_bind] at h
    rcases htok : tokenize t.content with _ | toks <;> rw [htok] at h
    · simp at h
    · simp only [Option.some_bind] at h
      rcases hm : mapM (substTok st.scope) toks with _ | subs <;> rw [hm] at h
      · simp at h
      · simp only [Option.some_bind, Option.some.injEq] at h
        rw [← h]
  | Integer n =>
    simp only [Value.eval, Option.some.injEq] at h
    rw [← h]
  | Link u =>
    simp only [Value.eval, Option.some.injEq] at h
    rw [← h]
  | Symbol s =>
    simp only [Value.eval, Option.some.injEq] at h
    rw [← h]

/-- Evaluating any command other than `store` never changes the scope. -/
theorem command_eval_scope (c : Command) (st st' : Stack) (hc : c ≠ .Store)
    (h : Command.eval c st = some st') : st'.scope = st.scope := by
  obtain ⟨data, scope, title, theme⟩ := st
  cases c <;>
    first
      | exact absurd rfl hc
      | (rcases data with _ | ⟨_ | _ | _ | _, _ | ⟨_ | _ | _ | _, rest⟩⟩ <;>
          simp_all [Command.eval] <;>
          (try rw [← h]) <;>
          (try (split at h <;> simp_all <;> rw [← h])))

/-- One node whose execution does not store to `n` preserves the
binding of `n` (a `store` to a different name only shadows that other
name). -/
theorem node_step_binding (n : String) (nd : Node) (st st1 : Stack)
    (hnd : Node.eval nd st = some st1) (hsafe : storesTo n nd st = false) :
    scopeGet n st1.scope = scopeGet n st.scope := by
  cases nd with
  | Literal v => rw [value_eval_scope v st st1 hnd]
  | Command c =>
    by_cases hc : c = Command.Store
    · subst hc
      obtain ⟨data, scope, title, theme⟩ := st
      rcases data with _ | ⟨v1, data⟩
      · simp [Node.eval, Command.eval] at hnd
      rcases v1 with t | i | l | m
      · simp [Node.eval, Command.eval] at hnd
      · simp [Node.eval, Command.eval] at hnd
      · simp [Node.eval, Command.eval] at hnd
      rcases data with _ | ⟨v2, data⟩
      · simp [Node.eval, Command.eval] at hnd
      simp only [Node.eval, Command.eval, Option.some.injEq] at hnd
      simp only [storesTo] at hsafe
      have hm : m ≠ n := by simpa using hsafe
      rw [← hnd]
      show scopeGet n ((m, v2) :: scope) = scopeGet n scope
      simp [scopeGet, Ne.symm hm]
    · rw [command_eval_scope c st st1 hc hnd]

/-- Evaluating a node sequence along which no `store` binds `n`
preserves the binding of `n`. -/
theorem binding_preserved (n : String) (ns : List Node) (st st2 : Stack)
    (hpb : preservesBinding n ns st = true)
    (h : evalNodes ns st = some st2) :
    scopeGet n st2.scope = scopeGet n st.scope := by
  induction ns generalizing st with
  | nil =>
    simp only [evalNodes, Option.some.injEq] at h
    rw [← h]
  | cons nd rest ih =>
    simp only [evalNodes] at h
    rcases hnd : Node.eval nd st with _ | st1 <;> rw [hnd] at h
    · simp at h
    · simp only [Option.some_bind] at h
      simp only [preservesBinding, hnd, Bool.and_eq_true] at hpb
      obtain ⟨hsafe, hrest⟩ := hpb
      have hsafe2 : storesTo n nd st = false := by simpa using hsafe
      rw [ih st1 hrest h, node_step_binding n nd st st1 hnd hsafe2]

/-- Claim C8: after `store` binds `v` to the name `n`, evaluating any
sequence of nodes none of which stores to the same name `n` — literal
pushes, `dup`, `swap`, `pop`, tag-setting commands, and also `store`s
to other names — leaves the binding intact, so a later `load` of
`Symbol n` pushes a value equal to `v`. -/
theorem C8_store_then_load (n : String) (v : Value) (rest : List Value)
    (scope : List (String × Value)) (title theme : Option String)
    (ns : List Node) (st1 st2 : Stack)
    (hstore : Command.eval .Store ⟨.Symbol n :: v :: rest, scope, title, theme⟩ = some st1)
    (hns : preservesBinding n ns st1 = true)
    (heval : evalNodes ns st1 = some st2) :
    Command.eval .Load { st2 with data := .Symbol n :: st2.data }
      = some { st2 with data := v :: st2.data } := by
  have h1 : st1 = ⟨rest, (n, v) :: scope, title, theme⟩ := by
    simp only [Command.eval, Option.some.injEq] at hstore
    rw [← hstore]
  have h2 : scopeGet n st2.scope = some v := by
    rw [binding_preserved n ns st1 st2 hns heval, h1]
    simp [scopeGet]
  simp [Command.eval, h2]

/-- Witness for C8: store the integer 7 under `x`, then push a
literal, push the symbol `y` and store under the different name `y`,
then load `x`. -/
theorem C8_witness :
    Command.eval .Load
        ⟨[.Symbol "x"], [("y", .Integer 2), ("x", .Integer 7)], none, none⟩
      = some ⟨[.Integer 7], [("y", .Integer 2), ("x", .Integer 7)], none, none⟩ :=
  C8_store_then_load "x" (.Integer 7) [] [] none none
    [.Literal (.Integer 2), .Literal (.Symbol "y"), .Command .Store]
    ⟨[], [("x", .Integer 7)], none, none⟩
    ⟨[], [("y", .Integer 2), ("x", .Integer 7)], none, none⟩
    (by decide) (by decide) (by decide)

/-- The `replaceBrNl` scan passes over any character other than a
backslash. -/
theorem replaceBrNl_cons (c : Char) (X : List Char) (h : c ≠ '\\') :
    replaceBrNl (c :: X) = c :: replaceBrNl X := by
  rw [replaceBrNl.eq_def]
  split
  · rename_i rest heq
    injection heq with ha hb
    exact absurd ha h
  · rename_i c2 rest heq
    injection heq with ha hb
    subst ha
    subst hb
    rfl
  · rename_i heq
    simp at heq

/-- The `replaceBrNl` scan passes over a backslash not followed by a
newline. -/
theorem replaceBrNl_bs (d : Char) (Y : List Char) (h : d ≠ '\n') :
    replaceBrNl ('\\' :: d :: Y) = '\\' :: replaceBrNl (d :: Y) := by
  rw [replaceBrNl.eq_def]
  split
  · rename_i rest heq
    injection heq with ha hb
    injection hb with hb1 hb2
    exact absurd hb1 h
  · rename_i c2 rest heq
    injection heq with ha hb
    subst ha
    subst hb
    rfl
  · rename_i heq
    simp at heq

/-- A nonempty intended text has a nonempty token body. -/
theorem tokBody_ne_nil (c : Char) (rest : List Char) : tokBody (c :: rest) ≠ [] := by
  simp only [tokBody]
  split_ifs <;> simp

/-- The token body of a newline-free text never starts with a newline. -/
theorem tokBody_head_ne (t : List Char) (hn : ∀ c ∈ t, c ≠ '\n') :
    ∀ d Y, tokBody t = d :: Y → d ≠ '\n' := by
  intro d Y heq
  cases t with
  | nil => simp [tokBody] at heq
  | cons c rest =>
    simp only [tokBody] at heq
    split_ifs at heq with h1 h2 h3
    · injection heq with ha hb
      rw [← ha]
      decide
    · injection heq with ha hb
      rw [← ha]
      decide
    · injection heq with ha hb
      rw [← ha]
      decide
    · injection heq with ha hb
      rw [← ha]
      exact hn c (by simp)

/-- On the token body of a newline-free text, the backslash-newline
replacement of `Value::parse` is the identity. -/
theorem replaceBrNl_tokBody (t : List Char) (hn : ∀ c ∈ t, c ≠ '\n') :
    replaceBrNl (tokBody t) = tokBody t := by
  induction t with
  | nil => rfl
  | cons c rest ih =>
    have hrest : ∀ x ∈ rest, x ≠ '\n' := fun x hx => hn x (by simp [hx])
    have ihr := ih hrest
    simp only [tokBody]
    split_ifs with h1 h2 h3
    · rw [replaceBrNl_bs '\t' _ (by decide), replaceBrNl_cons '\t' _ (by decide), ihr]
    · rw [replaceBrNl_bs '\r' _ (by decide), replaceBrNl_cons '\r' _ (by decide), ihr]
    · rw [replaceBrNl_bs '\\' _ (by decide)]
      rcases htb : tokBody rest with _ | ⟨d, Y⟩
      · rfl
      · have hd : d ≠ '\n' := tokBody_head_ne rest hrest d Y htb
        rw [replaceBrNl_bs d Y hd, ← htb, ihr]
    · rw [replaceBrNl_cons c _ h3, ihr]

/-- Unescaping the token body recovers the intended text. -/
theorem textEscape_tokBody (t : List Char) :
    textEscapeGo false (tokBody t) = t := by
  induction t with
  | nil => rfl
  | cons c rest ih =>
    simp only [tokBody]
    split_ifs with h1 h2 h3
    · subst h1
      show ('\t' :: textEscapeGo false (tokBody rest) : List Char) = _
      rw [ih]
    · subst h2
      show ('\r' :: textEscapeGo false (tokBody rest) : List Char) = _
      rw [ih]
    · subst h3
      show ('\\' :: textEscapeGo false (tokBody rest) : List Char) = _
      rw [ih]
    · simp only [textEscapeGo, if_neg h3]
      rw [ih]

/-- Scanning the escaped body of a quote-free text from inside a quoted
region appends the token body to the current token. -/
theorem scan_encodeEsc : ∀ (t : List Char) (tks : List String) (cur : List Char),
    (∀ c ∈ t, c ≠ '"') →
    List.foldl tokStep ⟨tks, cur, true, false⟩ (encodeEsc t)
      = ⟨tks, cur ++ tokBody t, true, false⟩ := by
  intro t
  induction t with
  | nil =>
    intro tks cur hq
    simp [encodeEsc, tokBody]
  | cons c rest ih =>
    intro tks cur hq
    have hqr : ∀ x ∈ rest, x ≠ '"' := fun x hx => hq x (by simp [hx])
    simp only [encodeEsc, tokBody]
    split_ifs with h1 h2 h3
    · rw [List.foldl_cons, List.foldl_cons,
        show tokStep ⟨tks, cur, true, false⟩ '\\' = ⟨tks, cur ++ ['\\'], true, true⟩ from rfl,
        show tokStep ⟨tks, cur ++ ['\\'], true, true⟩ 't'
          = ⟨tks, (cur ++ ['\\']) ++ ['\t'], true, false⟩ from rfl,
        ih tks ((cur ++ ['\\']) ++ ['\t']) hqr]
      simp
    · rw [List.foldl_cons, List.foldl_cons,
        show tokStep ⟨tks, cur, true, false⟩ '\\' = ⟨tks, cur ++ ['\\'], true, true⟩ from rfl,
        show tokStep ⟨tks, cur ++ ['\\'], true, true⟩ 'r'
          = ⟨tks, (cur ++ ['\\']) ++ ['\r'], true, false⟩ from rfl,
        ih tks ((cur ++ ['\\']) ++ ['\r']) hqr]
      simp
    · rw [List.foldl_cons, List.foldl_cons,
        show tokStep ⟨tks, cur, true, false⟩ '\\' = ⟨tks, cur ++ ['\\'], true, true⟩ from rfl,
        show tokStep ⟨tks, cur ++ ['\\'], true, true⟩ '\\'
          = ⟨tks, (cur ++ ['\\']) ++ ['\\'], true, false⟩ from rfl,
        ih tks ((cur ++ ['\\']) ++ ['\\']) hqr]
      simp
    · have hcq : c ≠ '"' := hq c (by simp)
      have hstep : tokStep ⟨tks, cur, true, false⟩ c = ⟨tks, cur ++ [c], true, false⟩ := by
        simp [tokStep, hcq, h3]
      rw [List.foldl_cons, hstep, ih tks (cur ++ [c]) hqr]
      simp

/-- Tokenizing a well-formed quoted literal yields exactly one token:
the quotes around the escape-processed body. -/
theorem tokenize_quoted (t : List Char) (hq : ∀ c ∈ t, c ≠ '"') :
    tokenize (String.mk ('"' :: (encodeEsc t ++ ['"'])))
      = some [String.mk ('"' :: (tokBody t ++ ['"']))] := by
  unfold tokenize scan
  rw [show (String.mk ('"' :: (encodeEsc t ++ ['"']))).toList
      = '"' :: (encodeEsc t ++ ['"']) from rfl]
  rw [List.foldl_cons,
    show tokStep tokInit '"' = ⟨[], ['"'], true, false⟩ from rfl,
    List.foldl_append, scan_encodeEsc t [] ['"'] hq,
    show List.foldl tokStep ⟨[], ['"'] ++ tokBody t, true, false⟩ ['"']
      = ⟨[], (['"'] ++ tokBody t) ++ ['"'], false, false⟩ from rfl]
  simp

/-- No quoted token is a command keyword. -/
theorem command_parse_quoted (xs : List Char) :
    Command.parse (String.mk ('"' :: xs)) = none := by
  have hne : ∀ s : String, s.data.head? ≠ some '"' → String.mk ('"' :: xs) ≠ s := by
    intro s hs h
    rw [← h] at hs
    exact hs rfl
  simp only [Command.parse]
  rw [if_neg (hne "heading" (by decide)), if_neg (hne "font-size" (by decide)),
    if_neg (hne "link" (by decide)), if_neg (hne "block-quote" (by decide)),
    if_neg (hne "list" (by decide)), if_neg (hne "image" (by decide)),
    if_neg (hne "title" (by decide)), if_neg (hne "theme" (by decide)),
    if_neg (hne "load" (by decide)), if_neg (hne "concat" (by decide)),
    if_neg (hne "store" (by decide)), if_neg (hne "dup" (by decide)),
    if_neg (hne "swap" (by decide)), if_neg (hne "pop" (by decide))]

/-- A fixpoint of `trimChars` is a fixpoint of both one-sided trims. -/
theorem trim_fix_parts (cs : List Char) (h : trimChars cs = cs) :
    List.dropWhile isRustWs cs = cs ∧ List.rdropWhile isRustWs cs = cs := by
  have heq : trimChars cs = List.rdropWhile isRustWs (List.dropWhile isRustWs cs) := rfl
  have hpre : trimChars cs <+: List.dropWhile isRustWs cs := by
    rw [heq]
    exact List.rdropWhile_prefix isRustWs _
  have hlen1 : cs.length ≤ (List.dropWhile isRustWs cs).length := by
    have := hpre.length_le
    rwa [h] at this
  have hlen2 : (List.dropWhile isRustWs cs).length ≤ cs.length :=
    (List.dropWhile_suffix isRustWs).length_le
  have hdrop : List.dropWhile isRustWs cs = cs :=
    (List.dropWhile_suffix isRustWs).eq_of_length (Nat.le_antisymm hlen2 hlen1)
  refine ⟨hdrop, ?_⟩
  have h2 : List.rdropWhile isRustWs cs = trimChars cs := by
    rw [heq, hdrop]
  rw [h2, h]

/-- Unfolding lemma: a tab chunk of the token body. -/
theorem tokBody_cons_tab (rest : List Char) :
    tokBody ('\t' :: rest) = '\\' :: '\t' :: tokBody rest := by
  simp [tokBody]

/-- Unfolding lemma: a carriage-return chunk of the token body. -/
theorem tokBody_cons_cr (rest : List Char) :
    tokBody ('\r' :: rest) = '\\' :: '\r' :: tokBody rest := by
  simp [tokBody]

/-- Unfolding lemma: a backslash chunk of the token body. -/
theorem tokBody_cons_bs (rest : List Char) :
    tokBody ('\\' :: rest) = '\\' :: '\\' :: tokBody rest := by
  simp [tokBody]

/-- Unfolding lemma: a plain chunk of the token body. -/
theorem tokBody_cons_plain (c : Char) (rest : List Char) (h1 : c ≠ '\t')
    (h2 : c ≠ '\r') (h3 : c ≠ '\\') :
    tokBody (c :: rest) = c :: tokBody rest := by
  simp [tokBody, h1, h2, h3]

/-- `getLast?` skips a leading element of a nonempty list. -/
theorem getLast?_cons_ne {α : Type} (a : α) (l : List α) (h : l ≠ []) :
    (a :: l).getLast? = l.getLast? := by
  cases l with
  | nil => exact absurd rfl h
  | cons b m => rw [List.getLast?_cons_cons]

/-- The last character of the token body is not whitespace when the
last character of the intended text is not. -/
theorem tokBody_getLast : ∀ (t : List Char),
    (∀ c, t.getLast? = some c → isRustWs c = false) →
    ∀ c, (tokBody t).getLast? = some c → isRustWs c = false := by
  intro t
  induction t with
  | nil =>
    intro _ c hc
    simp [tokBody] at hc
  | cons c rest ih =>
    intro h x hx
    cases rest with
    | nil =>
      by_cases h1 : c = '\t'
      · subst h1
        exact absurd (h '\t' (by simp)) (by decide)
      · by_cases h2 : c = '\r'
        · subst h2
          exact absurd (h '\r' (by simp)) (by decide)
        · by_cases h3 : c = '\\'
          · subst h3
            rw [tokBody_cons_bs] at hx
            simp only [tokBody] at hx
            have hx2 : '\\' = x := by
              simpa [List.getLast?_cons_cons] using hx
            rw [← hx2]
            decide
          · rw [tokBody_cons_plain c [] h1 h2 h3] at hx
            simp only [tokBody] at hx
            have hx2 : c = x := by simpa using hx
            rw [← hx2]
            exact h c (by simp)
    | cons d rest2 =>
      have hbn : tokBody (d :: rest2) ≠ [] := tokBody_ne_nil d rest2
      have hrec : ∀ y, (d :: rest2).getLast? = some y → isRustWs y = false := by
        intro y hy
        refine h y ?_
        rwa [getLast?_cons_ne c (d :: rest2) (by simp)]
      have hx2 : (tokBody (d :: rest2)).getLast? = some x := by
        by_cases h1 : c = '\t'
        · subst h1
          rw [tokBody_cons_tab, getLast?_cons_ne _ _ (by simp [hbn]),
            getLast?_cons_ne _ _ hbn] at hx
          exact hx
        · by_cases h2 : c = '\r'
          · subst h2
            rw [tokBody_cons_cr, getLast?_cons_ne _ _ (by simp [hbn]),
              getLast?_cons_ne _ _ hbn] at hx
            exact hx
          · by_cases h3 : c = '\\'
            · subst h3
              rw [tokBody_cons_bs, getLast?_cons_ne _ _ (by simp [hbn]),
                getLast?_cons_ne _ _ hbn] at hx
              exact hx
            · rw [tokBody_cons_plain c (d :: rest2) h1 h2 h3,
                getLast?_cons_ne _ _ hbn] at hx
              exact hx
      exact ih hrec x hx2

/-- The token body of a trimmed text is itself trimmed. -/
theorem tokBody_trim (t : List Char) (hh : List.dropWhile isRustWs t = t)
    (hl : List.rdropWhile isRustWs t = t) :
    trimChars (tokBody t) = tokBody t := by
  have hdrop : List.dropWhile isRustWs (tokBody t) = tokBody t := by
    cases t with
    | nil => rfl
    | cons c rest =>
      have hc : isRustWs c = false := by
        rw [List.dropWhile_cons] at hh
        by_cases hwc : isRustWs c
        · rw [if_pos hwc] at hh
          have hlen := congrArg List.length hh
          have hle : (List.dropWhile isRustWs rest).length ≤ rest.length :=
            (List.dropWhile_suffix isRustWs).length_le
          simp at hlen
          omega
        · simpa using hwc
      simp only [tokBody]
      split_ifs with h1 h2 h3
      · simp [List.dropWhile_cons, show isRustWs '\\' = false from by decide]
      · simp [List.dropWhile_cons, show isRustWs '\\' = false from by decide]
      · simp [List.dropWhile_cons, show isRustWs '\\' = false from by decide]
      · simp [List.dropWhile_cons, hc]
  have hrd : List.rdropWhile isRustWs (tokBody t) = tokBody t := by
    rw [List.rdropWhile_eq_self_iff]
    intro hl2
    cases t with
    | nil => simp [tokBody] at hl2
    | cons c rest =>
      have hlast := List.rdropWhile_eq_self_iff.mp hl (List.cons_ne_nil c rest)
      have hsrc : ∀ y, (c :: rest).getLast? = some y → isRustWs y = false := by
        intro y hy
        rw [List.getLast?_eq_getLast_of_ne_nil (List.cons_ne_nil c rest)] at hy
        injection hy with hy2
        rw [← hy2]
        simpa using hlast
      have hq := tokBody_getLast (c :: rest) hsrc ((tokBody (c :: rest)).getLast hl2)
        (List.getLast?_eq_getLast_of_ne_nil hl2)
      simpa using hq
  show List.rdropWhile isRustWs (List.dropWhile isRustWs (tokBody t)) = tokBody t
  rw [hdrop, hrd]

/-- Classifying the quoted token of a trimmed, quote-free,
newline-free text yields a `Paragraph` `Text` literal holding exactly
the intended text. -/
theorem value_parse_token (t : List Char) (hn : ∀ c ∈ t, c ≠ '\n')
    (htrim : trimChars t = t) :
    Value.parse (String.mk ('"' :: (tokBody t ++ ['"'])))
      = some (.Text ⟨String.mk t, none, .Paragraph⟩) := by
  obtain ⟨hh, hl⟩ := trim_fix_parts t htrim
  have hstrip : stripQuotes (String.mk ('"' :: (tokBody t ++ ['"'])))
      = some (String.mk (tokBody t)) := by
    unfold stripQuotes
    rw [show (String.mk ('"' :: (tokBody t ++ ['"']))).toList
        = '"' :: (tokBody t ++ ['"']) from rfl]
    simp [List.getLast?_concat, List.dropLast_concat]
  have hcontent : text_escape (strTrim (String.mk (replaceBrNl
      (String.mk (tokBody t)).toList))) = String.mk t := by
    rw [show (String.mk (tokBody t)).toList = tokBody t from rfl,
      replaceBrNl_tokBody t hn]
    rw [show strTrim (String.mk (tokBody t)) = String.mk (trimChars (tokBody t)) from rfl,
      tokBody_trim t hh hl]
    rw [show text_escape (String.mk (tokBody t))
        = String.mk (textEscapeGo false (tokBody t)) from rfl,
      textEscape_tokBody t]
  unfold Value.parse
  rw [hstrip]
  show some (Value.Text { content := text_escape (strTrim (String.mk (replaceBrNl
      (String.mk (tokBody t)).toList))), font_size := none, tag := .Paragraph })
    = some (.Text ⟨String.mk t, none, .Paragraph⟩)
  rw [hcontent]

/-- Claim C3, counterexample: in a quoted literal the escape `\n` does
not round-trip to a newline: tokenizing `"a\nb"` and classifying the
resulting token yields the content `a<br>b` — the backslash-newline
sequence is collapsed to the `<br>` marker — and not `a⟨newline⟩b`. -/
theorem C3_newline_counterexample :
    tokenize "\"a\\nb\"" = some ["\"a\\\nb\""]
    ∧ Value.parse "\"a\\\nb\"" = some (.Text ⟨"a<br>b", none, .Paragraph⟩)
    ∧ ("a<br>b" : String) ≠ "a\nb" := by
  refine ⟨by decide, by decide, by decide⟩

/-- Claim C3, amended: for every well-formed quoted literal whose
intended text contains no double quote and no newline and carries no
leading or trailing whitespace, tokenizing the literal written with the
escape sequences `\t`, `\r`, `\\` yields one token, and classifying
that token (stripping the quotes and unescaping) recovers exactly the
intended text: `\t` stands for a tab, `\r` for a carriage return and
`\\` for a single backslash. (The escape `\n` is excluded: it becomes
the `<br>` marker, as the counterexample shows.) -/
theorem C3_escape_roundtrip_amended (t : List Char)
    (hq : ∀ c ∈ t, c ≠ '"' ∧ c ≠ '\n')
    (htrim : trimChars t = t) :
    tokenize (String.mk ('"' :: (encodeEsc t ++ ['"'])))
      = some [String.mk ('"' :: (tokBody t ++ ['"']))]
    ∧ Node.parse (String.mk ('"' :: (tokBody t ++ ['"'])))
      = some (.Literal (.Text ⟨String.mk t, none, .Paragraph⟩)) := by
  constructor
  · exact tokenize_quoted t (fun c hc => (hq c hc).1)
  · unfold Node.parse
    rw [command_parse_quoted, value_parse_token t (fun c hc => (hq c hc).2) htrim]

/-- Witness for C3: the round trip at the intended text `x⟨tab⟩y\z⟨cr⟩w`. -/
theorem C3_witness :
    tokenize (String.mk ('"' :: (encodeEsc ['x', '\t', 'y', '\\', 'z', '\r', 'w'] ++ ['"'])))
      = some [String.mk ('"' :: (tokBody ['x', '\t', 'y', '\\', 'z', '\r', 'w'] ++ ['"']))]
    ∧ Node.parse (String.mk ('"' :: (tokBody ['x', '\t', 'y', '\\', 'z', '\r', 'w'] ++ ['"'])))
      = some (.Literal (.Text ⟨String.mk ['x', '\t', 'y', '\\', 'z', '\r', 'w'], none, .Paragraph⟩)) :=
  C3_escape_roundtrip_amended ['x', '\t', 'y', '\\', 'z', '\r', 'w'] (by decide) (by decide)

end Stav
